import Mathlib

set_option maxHeartbeats 1000000

namespace Acmewatch

/-- A byte string, modelled as a list of characters. -/
abbrev L := List Char

/-! ## Integer parsing (model of strconv.Atoi as used by parseSpan in src/main.go) -/

/-- Accumulate a run of decimal digits, most significant first; any non-digit
character makes the parse fail (as strconv.Atoi does). -/
def parseDigits : L → Nat → Option Nat
  | [], acc => some acc
  | c :: rest, acc =>
    if '0' ≤ c ∧ c ≤ '9' then parseDigits rest (acc * 10 + (c.toNat - '0'.toNat))
    else none

/-- A nonnegative parsed magnitude is accepted when it fits a 64-bit int,
matching strconv.Atoi's range error on overflow. -/
def intOfMag (n : Nat) : Option Int :=
  if n ≤ 9223372036854775807 then some (n : Int) else none

/-- A negative parsed magnitude is accepted when it fits a 64-bit int. -/
def negIntOfMag (n : Nat) : Option Int :=
  if n ≤ 9223372036854775808 then some (-(n : Int)) else none

/-- Model of strconv.Atoi: optional sign, then a nonempty digit run, with the
64-bit range check; none models a parse error. -/
def atoi (text : L) : Option Int :=
  match text with
  | [] => none
  | c :: rest =>
    if c = '+' then
      if rest = [] then none else (parseDigits rest 0).bind intOfMag
    else if c = '-' then
      if rest = [] then none else (parseDigits rest 0).bind negIntOfMag
    else (parseDigits (c :: rest) 0).bind intOfMag

/-! ## parseSpan (src/main.go lines 247-264) -/

/-- Split a string at the first comma (strings.Index(text, ",") together with
the slices text[:i] and text[i+1:]); none when there is no comma. -/
def splitAtComma : L → Option (L × L)
  | [] => none
  | c :: rest =>
    if c = ',' then some ([], rest)
    else
      match splitAtComma rest with
      | none => none
      | some (a, b) => some (c :: a, b)

/-- Transcription of parseSpan: a single integer N gives (N, N); a pair
N,M gives (N, M); any parse failure gives (0, 0). -/
def parseSpan (text : L) : Int × Int :=
  match splitAtComma text with
  | none =>
    match atoi text with
    | none => (0, 0)
    | some n => (n, n)
  | some (a, b) =>
    match atoi a, atoi b with
    | some s, some e => (s, e)
    | _, _ => (0, 0)

/-! ## findLines (src/main.go lines 266-284) -/

/-- First loop of findLines: advance while the start countdown is positive,
decrementing both countdowns at each newline; returns the number of bytes
consumed (startByte) and the adjusted end countdown. -/
def findLinesLoop1 : L → Int → Int → Nat × Int
  | [], _, e => (0, e)
  | c :: rest, s, e =>
    if 0 < s then
      let r := findLinesLoop1 rest (if c = '\n' then s - 1 else s) (if c = '\n' then e - 1 else e)
      (r.1 + 1, r.2)
    else (0, e)

/-- Second loop of findLines: advance while the end countdown is positive,
decrementing it at each newline; returns the number of bytes consumed. -/
def findLinesLoop2 : L → Int → Nat
  | [], _ => 0
  | c :: rest, e =>
    if 0 < e then findLinesLoop2 rest (if c = '\n' then e - 1 else e) + 1
    else 0

/-- The pair (startByte, endByte) computed by findLines. -/
def findLinesBytes (text : L) (start e : Int) : Nat × Nat :=
  let r := findLinesLoop1 text (start - 1) e
  (r.1, r.1 + findLinesLoop2 (text.drop r.1) r.2)

/-- Transcription of findLines: the slice text[startByte:endByte]. -/
def findLines (text : L) (start e : Int) : L :=
  (text.take (findLinesBytes text start e).2).drop (findLinesBytes text start e).1

/-- Wrap an integer into Go's 64-bit int range, as Go's int arithmetic does
on overflow. -/
def wrap64 (x : Int) : Int :=
  (x + 9223372036854775808) % 18446744073709551616 - 9223372036854775808

/-- First loop of findLines with Go's exact 64-bit int semantics: every
decrement wraps at the int64 boundary, so a countdown at -2^63 wraps to
2^63-1 exactly as the program's start-- and end-- do.  The loops above are
the unbounded-integer reading of the same code, which coincides with this
one whenever no decrement crosses the boundary (in particular on the
nonnegative line-number countdowns the other theorems quantify over). -/
def findLinesLoop1W : L → Int → Int → Nat × Int
  | [], _, e => (0, e)
  | c :: rest, s, e =>
    if 0 < s then
      let r := findLinesLoop1W rest (if c = '\n' then wrap64 (s - 1) else s)
        (if c = '\n' then wrap64 (e - 1) else e)
      (r.1 + 1, r.2)
    else (0, e)

/-- Second loop of findLines with Go's exact 64-bit int semantics. -/
def findLinesLoop2W : L → Int → Nat
  | [], _ => 0
  | c :: rest, e =>
    if 0 < e then findLinesLoop2W rest (if c = '\n' then wrap64 (e - 1) else e) + 1
    else 0

/-- The pair (startByte, endByte) computed by findLines under exact 64-bit
int semantics; the initial start-- also wraps. -/
def findLinesBytesW (text : L) (start e : Int) : Nat × Nat :=
  let r := findLinesLoop1W text (wrap64 (start - 1)) e
  (r.1, r.1 + findLinesLoop2W (text.drop r.1) r.2)

/-- findLines under exact 64-bit int semantics: the slice
text[startByte:endByte]. -/
def findLinesW (text : L) (start e : Int) : L :=
  (text.take (findLinesBytesW text start e).2).drop (findLinesBytesW text start e).1

/-! ## The replay loop of reformat (src/main.go lines 197-244) -/

/-- Scan a header line for the first occurrence of the operator characters
a, c, d (the j-scan in reformat); returns (line[:j], line[j], line[j+1:]). -/
def findOp : L → Option (L × Char × L)
  | [] => none
  | c :: rest =>
    if c = 'a' ∨ c = 'c' ∨ c = 'd' then some ([], c, rest)
    else
      match findOp rest with
      | none => none
      | some (pre, op, post) => some (c :: pre, op, post)

/-- An acme address issued by reformat: w.Addr("%d+#0", n) is the empty
selection just after line n, and w.Addr("%d,%d", s, e) selects the inclusive
line range. -/
inductive Addr
  | insertAfter (line : Int)
  | lineRange (s e : Int)
deriving DecidableEq

/-- Observable events of one reformat call: address requests and data writes
to the window, and the log messages it can emit.  logWriteErr is the report a
failed data write would produce; it is part of the model so that its absence
from every trace is expressible. -/
inductive Ev
  | addrReq (a : Addr)
  | writeData (d : L)
  | logParse (line : L)
  | logAddrErr (a : Addr)
  | logWriteErr
deriving DecidableEq

/-- The switch body of reformat for one parsed header: af tells whether
w.Addr fails for a given address (the hunk is then logged and abandoned);
wf tells whether the data write fails, but its result is discarded, as
reformat ignores the return values of w.Write. -/
def hunkEvents (new : L) (af : Addr → Bool) (wf : Addr → L → Bool)
    (op : Char) (os oe ns ne : Int) : List Ev :=
  if op = 'a' then
    let a := Addr.insertAfter os
    if af a then [Ev.addrReq a, Ev.logAddrErr a]
    else
      let d := findLines new ns ne
      let _werr := wf a d
      [Ev.addrReq a, Ev.writeData d]
  else if op = 'c' then
    let a := Addr.lineRange os oe
    if af a then [Ev.addrReq a, Ev.logAddrErr a]
    else
      let d := findLines new ns ne
      let _werr := wf a d
      [Ev.addrReq a, Ev.writeData d]
  else
    let a := Addr.lineRange os oe
    if af a then [Ev.addrReq a, Ev.logAddrErr a]
    else
      let _werr := wf a []
      [Ev.addrReq a, Ev.writeData []]

/-- The replay loop of reformat over the (already reversed) list of diff
lines: empty lines and detail lines are skipped; a line with no operator
character is logged and stops the loop (the Go break); a zero start in either
span skips the hunk; otherwise the switch issues the buffer commands. -/
def replay (new : L) (af : Addr → Bool) (wf : Addr → L → Bool) : List L → List Ev
  | [] => []
  | [] :: rest => replay new af wf rest
  | (c :: cs) :: rest =>
    if c = '<' ∨ c = '-' ∨ c = '>' then replay new af wf rest
    else
      match findOp (c :: cs) with
      | none => [Ev.logParse (c :: cs)]
      | some (pre, op, post) =>
        let os := (parseSpan pre).1
        let oe := (parseSpan pre).2
        let ns := (parseSpan post).1
        let ne := (parseSpan post).2
        if os = 0 ∨ ns = 0 then replay new af wf rest
        else hunkEvents new af wf op os oe ns ne ++ replay new af wf rest

/-- Model of strings.Split(s, "\n"): never empty, one entry per segment. -/
def splitOnNl : L → List L
  | [] => [[]]
  | c :: rest =>
    match splitOnNl rest with
    | [] => [[]]
    | l :: ls => if c = '\n' then [] :: l :: ls else (c :: l) :: ls

/-- reformat after the formatter ran (src/main.go lines 178-244): if the new
content is empty or equal to the old content nothing happens; otherwise the
textual diff is split on newlines and replayed from the last line upward. -/
def reformat (old new diff : L) (af : Addr → Bool) (wf : Addr → L → Bool) : List Ev :=
  if new = [] ∨ old = new then []
  else replay new af wf (splitOnNl diff).reverse

/-! ## Structured hunks and the parsed form of a diff script -/

/-- One diff instruction: operator and the two inclusive 1-based spans. -/
structure Hunk where
  op : Char
  os : Int
  oe : Int
  ns : Int
  ne : Int
deriving DecidableEq

/-- The structured reading of a diff script, line by line, with exactly the
same per-line classification as the replay loop: skip lines yield nothing,
header lines yield a hunk, and a line with no operator character makes the
whole script unreadable (none). -/
def parseScript : List L → Option (List Hunk)
  | [] => some []
  | [] :: rest => parseScript rest
  | (c :: cs) :: rest =>
    if c = '<' ∨ c = '-' ∨ c = '>' then parseScript rest
    else
      match findOp (c :: cs) with
      | none => none
      | some (pre, _op, post) =>
        match parseScript rest with
        | none => none
        | some hs =>
          some (⟨_op, (parseSpan pre).1, (parseSpan pre).2,
                 (parseSpan post).1, (parseSpan post).2⟩ :: hs)

/-- The buffer command a hunk compiles to: the address of the selection and
the data written (empty for a delete). -/
def cmdOfHunk (new : L) (h : Hunk) : Addr × L :=
  if h.op = 'a' then (Addr.insertAfter h.os, findLines new h.ns h.ne)
  else if h.op = 'c' then (Addr.lineRange h.os h.oe, findLines new h.ns h.ne)
  else (Addr.lineRange h.os h.oe, [])

/-- Extract the successful buffer commands from an event trace: an address
request immediately followed by a data write. -/
def cmdsOf : List Ev → List (Addr × L)
  | Ev.addrReq a :: Ev.writeData d :: rest => (a, d) :: cmdsOf rest
  | _ :: rest => cmdsOf rest
  | [] => []

/-! ## Reference text splicing (modelled from the spec) -/

/-- Modelled from the spec: the byte offset at which line (k+1) starts, that
is the position just after the k-th newline, clamped to the end of content
(section 6, buffer handle line addressing). -/
def lineOffset : L → Int → Nat
  | [], _ => 0
  | c :: rest, k =>
    if k ≤ 0 then 0
    else (if c = '\n' then lineOffset rest (k - 1) else lineOffset rest k) + 1

/-- Modelled from the spec: the reference text-splicing implementation of one
buffer command (section 8 round-trip property): a line range selects from the
start of line s to the start of line e+1 (so including the trailing newline
of line e), and an insertion point sits at the start of line n+1; the write
replaces the selection. -/
def applyCmd (buf : L) (cmd : Addr × L) : L :=
  match cmd.1 with
  | Addr.insertAfter n =>
    buf.take (lineOffset buf n) ++ cmd.2 ++ buf.drop (lineOffset buf n)
  | Addr.lineRange s e =>
    buf.take (lineOffset buf (s - 1)) ++ cmd.2 ++ buf.drop (lineOffset buf e)

/-- Modelled from the spec: apply the replay script in order. -/
def applyCmds (buf : L) (cmds : List (Addr × L)) : L :=
  cmds.foldl applyCmd buf

/-! ## Line-structured content -/

/-- Content made of newline-terminated lines. -/
def joinLines (ls : List L) : L :=
  (ls.map (fun l => l ++ ['\n'])).flatten

/-- Every listed line is free of newline characters. -/
def NLFree (ls : List L) : Prop := ∀ l ∈ ls, '\n' ∉ l

/-- Modelled from the spec: a valid normal diff of one line list into
another, as emitted by the external line-diff producer (section 6).  The two
indices count the old and new lines already consumed, so the next old line is
numbered a+1 and the next new line b+1.  Hunks appear in ascending order:
an add after old line a inserts new lines b+1..b+len, a change replaces old
lines a+1..a+dl by new lines b+1..b+il, and a delete removes old lines
a+1..a+dl, its new span being the position b before the gap. -/
inductive NormalDiff : Nat → Nat → List L → List L → List Hunk → Prop
  | nil (a b : Nat) (c : List L) : NormalDiff a b c c []
  | keep (a b : Nat) (x : L) (o n : List L) (hs : List Hunk) :
      NormalDiff (a + 1) (b + 1) o n hs →
      NormalDiff a b (x :: o) (x :: n) hs
  | add (a b : Nat) (o n ins : List L) (hs : List Hunk) :
      ins ≠ [] →
      NormalDiff a (b + ins.length) o n hs →
      NormalDiff a b o (ins ++ n)
        (⟨'a', (a : Int), (a : Int), (b : Int) + 1, (b : Int) + ins.length⟩ :: hs)
  | change (a b : Nat) (o n delOld ins : List L) (hs : List Hunk) :
      delOld ≠ [] → ins ≠ [] →
      NormalDiff (a + delOld.length) (b + ins.length) o n hs →
      NormalDiff a b (delOld ++ o) (ins ++ n)
        (⟨'c', (a : Int) + 1, (a : Int) + delOld.length,
          (b : Int) + 1, (b : Int) + ins.length⟩ :: hs)
  | delete (a b : Nat) (o n delOld : List L) (hs : List Hunk) :
      delOld ≠ [] →
      NormalDiff (a + delOld.length) b o n hs →
      NormalDiff a b (delOld ++ o) n
        (⟨'d', (a : Int) + 1, (a : Int) + delOld.length, (b : Int), (b : Int)⟩ :: hs)

/-! ## Applied-order bookkeeping -/

/-- The old-range start addressed by a buffer command. -/
def addrStart : Addr → Int
  | Addr.insertAfter n => n
  | Addr.lineRange s _ => s

/-- The old-range starts of the hunks addressed by a trace, in order. -/
def appliedStarts (evs : List Ev) : List Int :=
  evs.filterMap (fun e =>
    match e with
    | Ev.addrReq a => some (addrStart a)
    | _ => none)

/-- The old-range start of a diff line that the replay loop would turn into a
buffer command (none for lines it skips or cannot parse). -/
def validStart : L → Option Int
  | [] => none
  | c :: cs =>
    if c = '<' ∨ c = '-' ∨ c = '>' then none
    else
      match findOp (c :: cs) with
      | none => none
      | some (pre, _op, post) =>
        if (parseSpan pre).1 = 0 ∨ (parseSpan post).1 = 0 then none
        else some (parseSpan pre).1

/-- A diff line on which the replay loop does not stop: an empty line, a
detail line, or a line containing an operator character. -/
def BreakFree (ℓ : L) : Prop :=
  match ℓ with
  | [] => True
  | c :: cs => (c = '<' ∨ c = '-' ∨ c = '>') ∨ findOp (c :: cs) ≠ none

/-! ## Lemmas about findLines -/

theorem findLinesLoop1_nonpos (text : L) (s e : Int) (h : s ≤ 0) :
    findLinesLoop1 text s e = (0, e) := by
  cases text with
  | nil => rfl
  | cons c rest => simp [findLinesLoop1, not_lt.mpr h]

theorem findLinesLoop1_line (p rest : L) (s e : Int) (hp : '\n' ∉ p) (hs : 0 < s) :
    findLinesLoop1 (p ++ '\n' :: rest) s e =
      ((findLinesLoop1 rest (s - 1) (e - 1)).1 + (p.length + 1),
       (findLinesLoop1 rest (s - 1) (e - 1)).2) := by
  induction p with
  | nil => simp [findLinesLoop1, hs]
  | cons c p ih =>
    have hc : ¬(c = '\n') := by
      intro h
      exact hp (by simp [h])
    have hp' : '\n' ∉ p := fun h => hp (List.mem_cons_of_mem _ h)
    simp only [List.cons_append, List.append_eq, findLinesLoop1, if_pos hs, if_neg hc,
      ih hp', List.length_cons, Prod.mk.injEq]
    exact ⟨by omega, trivial⟩

theorem findLinesLoop2_nonpos (text : L) (e : Int) (h : e ≤ 0) :
    findLinesLoop2 text e = 0 := by
  cases text with
  | nil => rfl
  | cons c rest => simp [findLinesLoop2, not_lt.mpr h]

theorem findLinesLoop2_line (p rest : L) (e : Int) (hp : '\n' ∉ p) (he : 0 < e) :
    findLinesLoop2 (p ++ '\n' :: rest) e = p.length + 1 + findLinesLoop2 rest (e - 1) := by
  induction p with
  | nil => simp [findLinesLoop2, he]; omega
  | cons c p ih =>
    have hc : ¬(c = '\n') := by
      intro h
      exact hp (by simp [h])
    have hp' : '\n' ∉ p := fun h => hp (List.mem_cons_of_mem _ h)
    simp only [List.cons_append, List.append_eq, findLinesLoop2, if_pos he, if_neg hc,
      ih hp', List.length_cons]
    omega

/-! ## Lemmas about joinLines -/

theorem joinLines_cons (x : L) (ls : List L) :
    joinLines (x :: ls) = x ++ '\n' :: joinLines ls := by
  simp [joinLines]

theorem joinLines_append (xs ys : List L) :
    joinLines (xs ++ ys) = joinLines xs ++ joinLines ys := by
  simp [joinLines]

theorem joinLines_eq_nil (ls : List L) : joinLines ls = [] ↔ ls = [] := by
  cases ls with
  | nil => simp [joinLines]
  | cons x ls => simp [joinLines_cons]

theorem joinLines_nil : joinLines [] = [] := rfl

theorem NLFree_cons (x : L) (ls : List L) :
    NLFree (x :: ls) ↔ '\n' ∉ x ∧ NLFree ls := by
  simp [NLFree]

theorem NLFree_append (xs ys : List L) :
    NLFree (xs ++ ys) ↔ NLFree xs ∧ NLFree ys := by
  constructor
  · intro h
    exact ⟨fun l hl => h l (List.mem_append_left _ hl),
           fun l hl => h l (List.mem_append_right _ hl)⟩
  · rintro ⟨h1, h2⟩ l hl
    rcases List.mem_append.mp hl with h | h
    · exact h1 l h
    · exact h2 l h

theorem findLinesLoop2_join (N : List L) (len : Nat) (hN : NLFree N) (hlen : len ≤ N.length) :
    findLinesLoop2 (joinLines N) (len : Int) = (joinLines (N.take len)).length := by
  induction N generalizing len with
  | nil =>
    simp at hlen
    subst hlen
    simp [joinLines, findLinesLoop2]
  | cons p N ih =>
    cases len with
    | zero => simp [findLinesLoop2_nonpos, joinLines]
    | succ len =>
      have hp : '\n' ∉ p := hN p (List.mem_cons_self _ _)
      have hN' : NLFree N := fun l hl => hN l (List.mem_cons_of_mem _ hl)
      have hlen' : len ≤ N.length := by simpa using hlen
      rw [joinLines_cons, findLinesLoop2_line p (joinLines N) _ hp (by positivity)]
      have harg : ((len + 1 : Nat) : Int) - 1 = (len : Int) := by push_cast; ring
      rw [harg, ih len hN' hlen', List.take_succ_cons, joinLines_cons]
      simp
      omega

theorem findLines_eq (text : L) (st e : Int) :
    findLines text st e =
      (text.take ((findLinesLoop1 text (st - 1) e).1 +
          findLinesLoop2 (text.drop (findLinesLoop1 text (st - 1) e).1)
            (findLinesLoop1 text (st - 1) e).2)).drop
        (findLinesLoop1 text (st - 1) e).1 := rfl

theorem findLines_line (p rest : L) (st e : Int) (hp : '\n' ∉ p) (hst : 0 < st - 1) :
    findLines (p ++ '\n' :: rest) st e = findLines rest (st - 1) (e - 1) := by
  rw [findLines_eq, findLines_eq, findLinesLoop1_line p rest (st - 1) e hp hst]
  have hsplit : p ++ '\n' :: rest = (p ++ ['\n']) ++ rest := by simp
  set i := findLinesLoop1 rest (st - 1 - 1) (e - 1) with hi
  rw [hsplit]
  have hamt : i.1 + (p.length + 1) = (p ++ ['\n']).length + i.1 := by simp; omega
  rw [hamt, List.drop_append, Nat.add_assoc, List.take_append, List.drop_append]

theorem findLines_join (s len : Nat) (N : List L) (hN : NLFree N) (h : s + len ≤ N.length) :
    findLines (joinLines N) ((s : Int) + 1) ((s : Int) + (len : Int)) =
      joinLines ((N.drop s).take len) := by
  induction s generalizing N with
  | zero =>
    have h0 : ((0 : Nat) : Int) + 1 - 1 ≤ 0 := by norm_num
    rw [findLines_eq, findLinesLoop1_nonpos _ _ _ h0]
    have he : ((0 : Nat) : Int) + (len : Int) = (len : Int) := by push_cast; ring
    simp only [List.drop_zero, he]
    rw [findLinesLoop2_join N len hN (by omega)]
    have hsplit : joinLines N = joinLines (N.take len) ++ joinLines (N.drop len) := by
      rw [← joinLines_append, List.take_append_drop]
    rw [hsplit]
    simp only [Nat.zero_add, List.drop_zero]
    rw [← hsplit, hsplit, List.take_left]
  | succ s ih =>
    cases N with
    | nil => simp at h
    | cons p N =>
      have hp : '\n' ∉ p := hN p (List.mem_cons_self _ _)
      have hN' : NLFree N := fun l hl => hN l (List.mem_cons_of_mem _ hl)
      have h' : s + len ≤ N.length := by simp at h; omega
      have hpos : 0 < ((s + 1 : Nat) : Int) + 1 - 1 := by push_cast; omega
      have h1 : ((s + 1 : Nat) : Int) + 1 - 1 = ((s : Nat) : Int) + 1 := by push_cast; ring
      have h2 : ((s + 1 : Nat) : Int) + (len : Int) - 1 = ((s : Nat) : Int) + (len : Int) := by
        push_cast; ring
      rw [joinLines_cons, findLines_line _ _ _ _ hp hpos, h1, h2, ih N hN' h',
        List.drop_succ_cons]

/-! ## Bounds for findLines -/

theorem findLinesLoop1_le (text : L) (s e : Int) :
    (findLinesLoop1 text s e).1 ≤ text.length := by
  induction text generalizing s e with
  | nil => simp [findLinesLoop1]
  | cons c rest ih =>
    by_cases h : 0 < s
    · simp only [findLinesLoop1, if_pos h, List.length_cons]
      exact Nat.succ_le_succ (ih _ _)
    · simp [findLinesLoop1, h]

theorem findLinesLoop2_le (text : L) (e : Int) :
    findLinesLoop2 text e ≤ text.length := by
  induction text generalizing e with
  | nil => simp [findLinesLoop2]
  | cons c rest ih =>
    by_cases h : 0 < e
    · simp only [findLinesLoop2, if_pos h, List.length_cons]
      exact Nat.succ_le_succ (ih _)
    · simp [findLinesLoop2, h]

theorem findLinesLoop2_all (text : L) (e : Int) (h : (text.count '\n' : Int) < e) :
    findLinesLoop2 text e = text.length := by
  induction text generalizing e with
  | nil => simp [findLinesLoop2]
  | cons c rest ih =>
    have he : 0 < e := by
      have : (0 : Int) ≤ ((c :: rest).count '\n' : Int) := by positivity
      omega
    simp only [findLinesLoop2, if_pos he, List.length_cons]
    have hcnt : (c :: rest).count '\n' = rest.count '\n' + if c = '\n' then 1 else 0 := by
      simp [List.count_cons]
    by_cases hc : c = '\n'
    · rw [if_pos hc]
      rw [ih (e - 1) (by rw [hcnt, if_pos hc] at h; push_cast at h ⊢; omega)]
    · rw [if_neg hc]
      rw [ih e (by rw [hcnt, if_neg hc] at h; push_cast at h ⊢; omega)]

theorem findLinesLoop1_inv (text : L) (s e : Int) :
    (findLinesLoop1 text s e).2 =
      e - ((text.take (findLinesLoop1 text s e).1).count '\n' : Int) := by
  induction text generalizing s e with
  | nil => simp [findLinesLoop1]
  | cons c rest ih =>
    by_cases hs : 0 < s
    · simp only [findLinesLoop1, if_pos hs, List.take_succ_cons]
      by_cases hc : c = '\n'
      · simp only [if_pos hc, ih]
        rw [hc]
        simp [List.count_cons]
        omega
      · simp only [if_neg hc, ih]
        simp [List.count_cons, hc]
    · simp [findLinesLoop1, hs]

instance NLFree.dec (ls : List L) : Decidable (NLFree ls) :=
  List.decidableBAll _ ls

theorem findLinesLoop1W_le (text : L) (s e : Int) :
    (findLinesLoop1W text s e).1 ≤ text.length := by
  induction text generalizing s e with
  | nil => simp [findLinesLoop1W]
  | cons c rest ih =>
    by_cases h : 0 < s
    · simp only [findLinesLoop1W, if_pos h, List.length_cons]
      exact Nat.succ_le_succ (ih _ _)
    · simp [findLinesLoop1W, h]

theorem findLinesLoop2W_le (text : L) (e : Int) :
    findLinesLoop2W text e ≤ text.length := by
  induction text generalizing e with
  | nil => simp [findLinesLoop2W]
  | cons c rest ih =>
    by_cases h : 0 < e
    · simp only [findLinesLoop2W, if_pos h, List.length_cons]
      exact Nat.succ_le_succ (ih _)
    · simp [findLinesLoop2W, h]

/-- With start at the minimum 64-bit int, the program's initial start--
wraps to 2^63-1 and the first loop consumes the whole text: startByte is
len(text) and the result is the empty tail. -/
theorem findLinesW_wrap_start_example :
    findLinesBytesW "a\nb".toList (-9223372036854775808) 7 = (3, 3) ∧
    findLinesW "a\nb".toList (-9223372036854775808) 7 = [] := by
  constructor
  · decide
  · decide

/-- With end at the minimum 64-bit int and start past the first line, the
end-- at the first newline wraps to 2^63-1 and the second loop consumes the
whole remaining tail. -/
theorem findLinesW_wrap_end_example :
    findLinesW "a\nb\nc".toList 2 (-9223372036854775808) = "b\nc".toList := by
  decide

/-- C10: findLines under Go's exact 64-bit int semantics is total on all
integer arguments (zero, negative, wrapping at the int64 boundary, or past
the end): the computed byte window satisfies startByte ≤ endByte ≤ length of
the text, and the returned value is exactly the contiguous slice
text[startByte:endByte], so no access is out of bounds. -/
theorem c10_findLines_total (text : L) (s e : Int) :
    (findLinesBytesW text s e).1 ≤ (findLinesBytesW text s e).2 ∧
    (findLinesBytesW text s e).2 ≤ text.length ∧
    findLinesW text s e =
      (text.take (findLinesBytesW text s e).2).drop (findLinesBytesW text s e).1 := by
  have h1 := findLinesLoop1W_le text (wrap64 (s - 1)) e
  have h2 := findLinesLoop2W_le (text.drop (findLinesLoop1W text (wrap64 (s - 1)) e).1)
    (findLinesLoop1W text (wrap64 (s - 1)) e).2
  have h3 : (text.drop (findLinesLoop1W text (wrap64 (s - 1)) e).1).length =
      text.length - (findLinesLoop1W text (wrap64 (s - 1)) e).1 := by simp
  refine ⟨?_, ?_, rfl⟩ <;> simp only [findLinesBytesW] <;> omega

/-- C8: when the requested line range extends past the end of the content
(the end countdown exceeds the number of newline characters), the extraction
stops exactly at the end of the content and returns all available bytes from
the computed start offset, without error or out-of-bounds access. -/
theorem c8_extraction_clamps (text : L) (s e : Int)
    (h : (text.count '\n' : Int) < e) :
    (findLinesBytes text s e).2 = text.length ∧
    findLines text s e = text.drop (findLinesBytes text s e).1 := by
  have hinv := findLinesLoop1_inv text (s - 1) e
  have hle := findLinesLoop1_le text (s - 1) e
  have hsplit : text.count '\n' =
      (text.take (findLinesLoop1 text (s - 1) e).1).count '\n' +
      (text.drop (findLinesLoop1 text (s - 1) e).1).count '\n' := by
    rw [← List.count_append, List.take_append_drop]
  have hgt : ((text.drop (findLinesLoop1 text (s - 1) e).1).count '\n' : Int) <
      (findLinesLoop1 text (s - 1) e).2 := by
    rw [hinv]; omega
  have hall := findLinesLoop2_all _ _ hgt
  have hlen : (text.drop (findLinesLoop1 text (s - 1) e).1).length =
      text.length - (findLinesLoop1 text (s - 1) e).1 := by simp
  have hend : (findLinesBytes text s e).2 = text.length := by
    simp only [findLinesBytes]
    omega
  refine ⟨hend, ?_⟩
  rw [findLines_eq]
  have htot : (findLinesLoop1 text (s - 1) e).1 +
      findLinesLoop2 (text.drop (findLinesLoop1 text (s - 1) e).1)
        (findLinesLoop1 text (s - 1) e).2 = text.length := by omega
  rw [htot, List.take_length]
  rfl

/-- Witness for C8 at text "a\nb", start 1, end 5. -/
theorem c8_extraction_clamps_witness :
    (("a\nb".toList.count '\n' : Int) < 5) ∧
    ((findLinesBytes "a\nb".toList 1 5).2 = "a\nb".toList.length ∧
     findLines "a\nb".toList 1 5 = "a\nb".toList.drop (findLinesBytes "a\nb".toList 1 5).1) :=
  ⟨by decide, c8_extraction_clamps "a\nb".toList 1 5 (by decide)⟩

/-- C9 counterexample: on new content "a\nx\nc\n" with newRange [2,2] the
extracted payload is "x\n", which includes the trailing terminator of the
last included line, not "x" as the claim's exclusive reading dictates. -/
theorem c9_extraction_window_counterexample :
    findLines "a\nx\nc\n".toList 2 2 = "x\n".toList ∧
    findLines "a\nx\nc\n".toList 2 2 ≠ "x".toList := by
  constructor
  · decide
  · decide

/-- C9 (amended): for newline-free lines N and an in-bounds 1-based inclusive
range [s, e], findLines walks the content counting s-1 newlines for the start
offset and the remaining lines of the range for the end offset, and returns
the lines s..e of the content, each with its terminating newline: the payload
is inclusive (not exclusive) of the trailing terminator of the last line. -/
theorem c9_extraction_window_amended (N : List L) (s e : Nat)
    (hN : NLFree N) (h1 : 1 ≤ s) (h2 : s ≤ e) (h3 : e ≤ N.length) :
    findLines (joinLines N) (s : Int) (e : Int) =
      joinLines ((N.drop (s - 1)).take (e - s + 1)) := by
  have hmain := findLines_join (s - 1) (e - s + 1) N hN (by omega)
  have ha : ((s - 1 : Nat) : Int) + 1 = (s : Int) := by omega
  have hb : ((s - 1 : Nat) : Int) + ((e - s + 1 : Nat) : Int) = (e : Int) := by omega
  rw [ha, hb] at hmain
  exact hmain

/-- Witness for C9's amended theorem on lines a, x, c with range [2,2]. -/
theorem c9_extraction_window_amended_witness :
    NLFree [['a'], ['x'], ['c']] ∧ 1 ≤ 2 ∧ 2 ≤ 2 ∧ 2 ≤ [[ 'a'], ['x'], ['c']].length ∧
    findLines (joinLines [['a'], ['x'], ['c']]) ((2 : Nat) : Int) ((2 : Nat) : Int) =
      joinLines (([['a'], ['x'], ['c']].drop (2 - 1)).take (2 - 2 + 1)) :=
  ⟨by decide, by decide, by decide, by decide,
   c9_extraction_window_amended [['a'], ['x'], ['c']] 2 2 (by decide) (by decide)
     (by decide) (by decide)⟩

/-! ## Equation lemmas for the replay loop -/

theorem replay_cons_empty {new : L} {af : Addr → Bool} {wf : Addr → L → Bool} {rest : List L} :
    replay new af wf ([] :: rest) = replay new af wf rest := rfl

theorem replay_cons_detail {new : L} {af : Addr → Bool} {wf : Addr → L → Bool}
    {c : Char} {cs : L} {rest : List L} (h : c = '<' ∨ c = '-' ∨ c = '>') :
    replay new af wf ((c :: cs) :: rest) = replay new af wf rest := by
  simp only [replay, if_pos h]

theorem replay_cons_break {new : L} {af : Addr → Bool} {wf : Addr → L → Bool}
    {c : Char} {cs : L} {rest : List L}
    (hd : ¬(c = '<' ∨ c = '-' ∨ c = '>')) (hop : findOp (c :: cs) = none) :
    replay new af wf ((c :: cs) :: rest) = [Ev.logParse (c :: cs)] := by
  simp only [replay, if_neg hd, hop]

theorem replay_cons_zero {new : L} {af : Addr → Bool} {wf : Addr → L → Bool}
    {c : Char} {cs pre post : L} {op : Char} {rest : List L}
    (hd : ¬(c = '<' ∨ c = '-' ∨ c = '>')) (hop : findOp (c :: cs) = some (pre, op, post))
    (hz : (parseSpan pre).1 = 0 ∨ (parseSpan post).1 = 0) :
    replay new af wf ((c :: cs) :: rest) = replay new af wf rest := by
  simp only [replay, if_neg hd, hop, if_pos hz]

theorem replay_cons_hunk {new : L} {af : Addr → Bool} {wf : Addr → L → Bool}
    {c : Char} {cs pre post : L} {op : Char} {rest : List L}
    (hd : ¬(c = '<' ∨ c = '-' ∨ c = '>')) (hop : findOp (c :: cs) = some (pre, op, post))
    (hz : ¬((parseSpan pre).1 = 0 ∨ (parseSpan post).1 = 0)) :
    replay new af wf ((c :: cs) :: rest) =
      hunkEvents new af wf op (parseSpan pre).1 (parseSpan pre).2
        (parseSpan post).1 (parseSpan post).2 ++ replay new af wf rest := by
  simp only [replay, if_neg hd, hop, if_neg hz]

theorem findOp_mem {ℓ pre post : L} {op : Char} (h : findOp ℓ = some (pre, op, post)) :
    op = 'a' ∨ op = 'c' ∨ op = 'd' := by
  induction ℓ generalizing pre op post with
  | nil => simp [findOp] at h
  | cons c cs ih =>
    by_cases hc : c = 'a' ∨ c = 'c' ∨ c = 'd'
    · simp only [findOp, if_pos hc, Option.some.injEq, Prod.mk.injEq] at h
      obtain ⟨-, h2, -⟩ := h
      subst h2
      exact hc
    · simp only [findOp, if_neg hc] at h
      rcases hfo : findOp cs with _ | ⟨pre', op', post'⟩ <;> rw [hfo] at h
      · simp at h
      · simp only [Option.some.injEq, Prod.mk.injEq] at h
        obtain ⟨-, h2, -⟩ := h
        subst h2
        exact ih hfo

theorem replay_append (new : L) (af : Addr → Bool) (wf : Addr → L → Bool)
    (xs ys : List L) (hbf : ∀ ℓ ∈ xs, BreakFree ℓ) :
    replay new af wf (xs ++ ys) = replay new af wf xs ++ replay new af wf ys := by
  induction xs with
  | nil => simp [replay]
  | cons x xs ih =>
    have hx : BreakFree x := hbf x (List.mem_cons_self _ _)
    have hxs : ∀ ℓ ∈ xs, BreakFree ℓ := fun ℓ hl => hbf ℓ (List.mem_cons_of_mem _ hl)
    cases x with
    | nil =>
      simp only [List.cons_append, replay_cons_empty]
      exact ih hxs
    | cons c cs =>
      by_cases hd : c = '<' ∨ c = '-' ∨ c = '>'
      · rw [List.cons_append, replay_cons_detail hd, replay_cons_detail hd, ih hxs]
      · rcases hfo : findOp (c :: cs) with _ | ⟨pre, op, post⟩
        · exact absurd hfo (by simpa [BreakFree, hd] using hx)
        · by_cases hz : (parseSpan pre).1 = 0 ∨ (parseSpan post).1 = 0
          · rw [List.cons_append, replay_cons_zero hd hfo hz,
              replay_cons_zero hd hfo hz, ih hxs]
          · rw [List.cons_append, replay_cons_hunk hd hfo hz,
              replay_cons_hunk hd hfo hz, ih hxs, List.append_assoc]

theorem replay_skip_header (new : L) (af : Addr → Bool) (wf : Addr → L → Bool)
    (xs ys : List L) {c : Char} {cs pre post : L} {op : Char}
    (hd : ¬(c = '<' ∨ c = '-' ∨ c = '>')) (hop : findOp (c :: cs) = some (pre, op, post))
    (hz : (parseSpan pre).1 = 0 ∨ (parseSpan post).1 = 0) :
    replay new af wf (xs ++ (c :: cs) :: ys) = replay new af wf (xs ++ ys) := by
  induction xs with
  | nil => simpa using replay_cons_zero hd hop hz
  | cons x xs ih =>
    cases x with
    | nil => simpa only [List.cons_append, replay_cons_empty] using ih
    | cons c' cs' =>
      by_cases hd' : c' = '<' ∨ c' = '-' ∨ c' = '>'
      · rw [List.cons_append, replay_cons_detail hd', List.cons_append,
          replay_cons_detail hd', ih]
      · rcases hfo' : findOp (c' :: cs') with _ | ⟨pre', op', post'⟩
        · rw [List.cons_append, replay_cons_break hd' hfo', List.cons_append,
            replay_cons_break hd' hfo']
        · by_cases hz' : (parseSpan pre').1 = 0 ∨ (parseSpan post').1 = 0
          · rw [List.cons_append, replay_cons_zero hd' hfo' hz', List.cons_append,
              replay_cons_zero hd' hfo' hz', ih]
          · rw [List.cons_append, replay_cons_hunk hd' hfo' hz', List.cons_append,
              replay_cons_hunk hd' hfo' hz', ih]

/-! ## Applied-order lemmas -/

theorem appliedStarts_append (evs1 evs2 : List Ev) :
    appliedStarts (evs1 ++ evs2) = appliedStarts evs1 ++ appliedStarts evs2 :=
  List.filterMap_append _ _ _

theorem appliedStarts_hunkEvents {new : L} {af : Addr → Bool} {wf : Addr → L → Bool}
    {op : Char} {os oe ns ne : Int} :
    appliedStarts (hunkEvents new af wf op os oe ns ne) = [os] := by
  simp only [hunkEvents]
  split_ifs <;> simp [appliedStarts, addrStart]

theorem appliedStarts_replay_pref (new : L) (af : Addr → Bool) (wf : Addr → L → Bool)
    (l : List L) :
    ∃ t, appliedStarts (replay new af wf l) ++ t = l.filterMap validStart := by
  induction l with
  | nil => exact ⟨[], rfl⟩
  | cons x rest ih =>
    obtain ⟨t, ht⟩ := ih
    cases x with
    | nil =>
      refine ⟨t, ?_⟩
      have hv : validStart [] = none := rfl
      rw [replay_cons_empty]
      simp only [List.filterMap_cons, hv]
      exact ht
    | cons c cs =>
      by_cases hd : c = '<' ∨ c = '-' ∨ c = '>'
      · refine ⟨t, ?_⟩
        have hv : validStart (c :: cs) = none := by
          simp only [validStart, if_pos hd]
        rw [replay_cons_detail hd]
        simp only [List.filterMap_cons, hv]
        exact ht
      · rcases hfo : findOp (c :: cs) with _ | ⟨pre, op, post⟩
        · refine ⟨((c :: cs) :: rest).filterMap validStart, ?_⟩
          rw [replay_cons_break hd hfo]
          simp [appliedStarts]
        · by_cases hz : (parseSpan pre).1 = 0 ∨ (parseSpan post).1 = 0
          · refine ⟨t, ?_⟩
            have hv : validStart (c :: cs) = none := by
              simp only [validStart, if_neg hd, hfo, if_pos hz]
            rw [replay_cons_zero hd hfo hz]
            simp only [List.filterMap_cons, hv]
            exact ht
          · refine ⟨t, ?_⟩
            have hv : validStart (c :: cs) = some (parseSpan pre).1 := by
              simp only [validStart, if_neg hd, hfo, if_neg hz]
            rw [replay_cons_hunk hd hfo hz, appliedStarts_append,
              appliedStarts_hunkEvents]
            simp only [List.filterMap_cons, hv]
            simpa using ht

/-- C2: if the valid headers of the diff script appear in ascending order of
their old-range start (which is how a diff producer emits them), then the
hunks addressed by the replay are in descending order of old-range start:
each applied hunk's start is at most the previously applied hunk's start. -/
theorem c2_replay_order (old new diffText : L) (af : Addr → Bool) (wf : Addr → L → Bool)
    (h : (((splitOnNl diffText).filterMap validStart).Chain' (· ≤ ·))) :
    (appliedStarts (reformat old new diffText af wf)).Chain' (fun x y => y ≤ x) := by
  unfold reformat
  split_ifs with hgate
  · simp [appliedStarts]
  · obtain ⟨t, ht⟩ := appliedStarts_replay_pref new af wf (splitOnNl diffText).reverse
    rw [List.filterMap_reverse] at ht
    have hrev : ((((splitOnNl diffText).filterMap validStart).reverse).Chain'
        (fun x y => y ≤ x)) := by
      rw [List.chain'_reverse]
      exact h
    rw [← ht] at hrev
    exact hrev.left_of_append

/-- Witness for C2 on the two-hunk script 1c1, 3c3. -/
theorem c2_replay_order_witness :
    (((splitOnNl "1c1\n3c3".toList).filterMap validStart).Chain' (· ≤ ·)) ∧
    ((appliedStarts (reformat "a\n".toList "x\ny\nz\n".toList "1c1\n3c3".toList
        (fun _ => false) (fun _ _ => false))).Chain' (fun x y => y ≤ x)) := by
  have hasc : (((splitOnNl "1c1\n3c3".toList).filterMap validStart).Chain' (· ≤ ·)) := by
    have hlist : (splitOnNl "1c1\n3c3".toList).filterMap validStart = [1, 3] := by decide
    rw [hlist]
    exact List.chain'_cons.mpr ⟨by norm_num, List.chain'_singleton 3⟩
  exact ⟨hasc,
    c2_replay_order "a\n".toList "x\ny\nz\n".toList "1c1\n3c3".toList
      (fun _ => false) (fun _ _ => false) hasc⟩

/-- C4: a header whose parsed old span or new span has start value 0 (for
example 0a1,2) is skipped entirely, producing no buffer command, while all
remaining lines of the script are still processed exactly as before. -/
theorem c4_zero_span_skip (new : L) (af : Addr → Bool) (wf : Addr → L → Bool)
    (xs ys : List L) (c : Char) (cs pre post : L) (op : Char)
    (hd : ¬(c = '<' ∨ c = '-' ∨ c = '>'))
    (hop : findOp (c :: cs) = some (pre, op, post))
    (hz : (parseSpan pre).1 = 0 ∨ (parseSpan post).1 = 0) :
    replay new af wf (xs ++ (c :: cs) :: ys) = replay new af wf (xs ++ ys) :=
  replay_skip_header new af wf xs ys hd hop hz

/-- Witness for C4 on the header 0a1,2 surrounded by valid hunks. -/
theorem c4_zero_span_skip_witness :
    (¬(('0' : Char) = '<' ∨ ('0' : Char) = '-' ∨ ('0' : Char) = '>')) ∧
    findOp "0a1,2".toList = some ("0".toList, 'a', "1,2".toList) ∧
    ((parseSpan "0".toList).1 = 0 ∨ (parseSpan "1,2".toList).1 = 0) ∧
    replay "x\ny\n".toList (fun _ => false) (fun _ _ => false)
        (["3c3".toList] ++ "0a1,2".toList :: ["1c1".toList]) =
      replay "x\ny\n".toList (fun _ => false) (fun _ _ => false)
        (["3c3".toList] ++ ["1c1".toList]) :=
  ⟨by decide, by decide, by decide,
   c4_zero_span_skip "x\ny\n".toList (fun _ => false) (fun _ _ => false)
     ["3c3".toList] ["1c1".toList] '0' "a1,2".toList "0".toList "1,2".toList 'a'
     (by decide) (by decide) (by decide)⟩

/-- C3 counterexample: in the script 1c1, zzz, 3c3 the middle line has no
operator character; the replay (which runs from the last line upward) applies
the valid hunk 3c3 but then stops at zzz, so the equally valid hunk 1c1 is
never applied — contradicting the claim that only the bad line is skipped. -/
theorem c3_malformed_counterexample :
    Ev.addrReq (Addr.lineRange 3 3) ∈
      reformat "a\n".toList "x\ny\nz\n".toList "1c1\nzzz\n3c3".toList
        (fun _ => false) (fun _ _ => false) ∧
    Ev.addrReq (Addr.lineRange 1 1) ∉
      reformat "a\n".toList "x\ny\nz\n".toList "1c1\nzzz\n3c3".toList
        (fun _ => false) (fun _ _ => false) := by
  constructor
  · decide
  · decide

/-- C3 (amended): a header whose spans fail integer parsing (the operator
character is present) is reported as a zero span and skipped without being
fatal: the rest of the script is processed exactly as if the line were not
there.  But a line with no operator character at all is logged and stops the
replay: no line before it in the script (that is, processed after it) is
applied; only the hunks after it, already replayed, remain applied. -/
theorem c3_malformed_amended :
    (∀ (new : L) (af : Addr → Bool) (wf : Addr → L → Bool) (xs ys : List L)
       (c : Char) (cs pre post : L) (op : Char),
      ¬(c = '<' ∨ c = '-' ∨ c = '>') → findOp (c :: cs) = some (pre, op, post) →
      (parseSpan pre = (0, 0) ∨ parseSpan post = (0, 0)) →
      replay new af wf (xs ++ (c :: cs) :: ys) = replay new af wf (xs ++ ys)) ∧
    (∀ (new : L) (af : Addr → Bool) (wf : Addr → L → Bool) (ys : List L)
       (c : Char) (cs : L),
      ¬(c = '<' ∨ c = '-' ∨ c = '>') → findOp (c :: cs) = none →
      replay new af wf ((c :: cs) :: ys) = [Ev.logParse (c :: cs)]) := by
  constructor
  · intro new af wf xs ys c cs pre post op hd hop hz
    refine replay_skip_header new af wf xs ys hd hop ?_
    rcases hz with hz | hz
    · exact Or.inl (by rw [hz])
    · exact Or.inr (by rw [hz])
  · intro new af wf ys c cs hd hop
    exact replay_cons_break hd hop

/-- Witness for C3's amended theorem: the span-failure header zzc1 is skipped
non-fatally, and the operator-free line zzz stops the replay. -/
theorem c3_malformed_amended_witness :
    replay "x\n".toList (fun _ => false) (fun _ _ => false)
        (["2c2".toList] ++ "zzc1".toList :: ["1c1".toList]) =
      replay "x\n".toList (fun _ => false) (fun _ _ => false)
        (["2c2".toList] ++ ["1c1".toList]) ∧
    replay "x\n".toList (fun _ => false) (fun _ _ => false)
        ("zzz".toList :: ["1c1".toList]) = [Ev.logParse "zzz".toList] :=
  ⟨c3_malformed_amended.1 "x\n".toList (fun _ => false) (fun _ _ => false)
     ["2c2".toList] ["1c1".toList] 'z' "zc1".toList "zz".toList "1".toList 'c'
     (by decide) (by decide) (by decide),
   c3_malformed_amended.2 "x\n".toList (fun _ => false) (fun _ _ => false)
     ["1c1".toList] 'z' "zz".toList (by decide) (by decide)⟩

/-- C5: when the formatter output is empty or byte-identical to the old
content, reformat performs no buffer interaction at all: the event trace is
empty, so there are zero buffer-mutation commands. -/
theorem c5_noop_idempotence (old new diffText : L) (af : Addr → Bool) (wf : Addr → L → Bool)
    (h : new = [] ∨ new = old) :
    reformat old new diffText af wf = [] := by
  unfold reformat
  rcases h with h | h
  · rw [if_pos (Or.inl h)]
  · rw [if_pos (Or.inr h.symm)]

/-- Witness for C5 with new content identical to old content. -/
theorem c5_noop_idempotence_witness :
    ("a\nb\n".toList = [] ∨ "a\nb\n".toList = "a\nb\n".toList) ∧
    reformat "a\nb\n".toList "a\nb\n".toList "1c1".toList
      (fun _ => false) (fun _ _ => false) = [] :=
  ⟨Or.inr rfl,
   c5_noop_idempotence "a\nb\n".toList "a\nb\n".toList "1c1".toList
     (fun _ => false) (fun _ _ => false) (Or.inr rfl)⟩

/-- C6: for an applied hunk (operator found, both starts nonzero, address
accepted), an Add issues the insertion point just after line oldStart and
writes the bytes of newRange extracted from the new content; a Change issues
the inclusive old line range and writes the bytes of newRange; a Delete
issues the inclusive old line range and writes empty content. -/
theorem c6_hunk_command_mapping (new : L) (af : Addr → Bool) (wf : Addr → L → Bool)
    (rest : List L) (c : Char) (cs pre post : L) (op : Char)
    (hd : ¬(c = '<' ∨ c = '-' ∨ c = '>'))
    (hop : findOp (c :: cs) = some (pre, op, post))
    (hos : (parseSpan pre).1 ≠ 0) (hns : (parseSpan post).1 ≠ 0) :
    (op = 'a' → af (Addr.insertAfter (parseSpan pre).1) = false →
      replay new af wf ((c :: cs) :: rest) =
        [Ev.addrReq (Addr.insertAfter (parseSpan pre).1),
         Ev.writeData (findLines new (parseSpan post).1 (parseSpan post).2)] ++
        replay new af wf rest) ∧
    (op = 'c' → af (Addr.lineRange (parseSpan pre).1 (parseSpan pre).2) = false →
      replay new af wf ((c :: cs) :: rest) =
        [Ev.addrReq (Addr.lineRange (parseSpan pre).1 (parseSpan pre).2),
         Ev.writeData (findLines new (parseSpan post).1 (parseSpan post).2)] ++
        replay new af wf rest) ∧
    (op = 'd' → af (Addr.lineRange (parseSpan pre).1 (parseSpan pre).2) = false →
      replay new af wf ((c :: cs) :: rest) =
        [Ev.addrReq (Addr.lineRange (parseSpan pre).1 (parseSpan pre).2),
         Ev.writeData []] ++
        replay new af wf rest) := by
  have hz : ¬((parseSpan pre).1 = 0 ∨ (parseSpan post).1 = 0) := by tauto
  rw [replay_cons_hunk hd hop hz]
  refine ⟨?_, ?_, ?_⟩
  · intro ha haf
    subst ha
    simp [hunkEvents, haf]
  · intro hc haf
    subst hc
    simp [hunkEvents, haf]
  · intro hdl haf
    subst hdl
    simp [hunkEvents, haf]

/-- Witness for C6 with the change header 2c2. -/
theorem c6_hunk_command_mapping_witness :
    replay "x\ny\n".toList (fun _ => false) (fun _ _ => false)
        ("2c2".toList :: ["1c1".toList]) =
      [Ev.addrReq (Addr.lineRange 2 2),
       Ev.writeData (findLines "x\ny\n".toList 2 2)] ++
      replay "x\ny\n".toList (fun _ => false) (fun _ _ => false) ["1c1".toList] := by
  have h := c6_hunk_command_mapping "x\ny\n".toList (fun _ => false) (fun _ _ => false)
    ["1c1".toList] '2' "c2".toList "2".toList "2".toList 'c'
    (by decide) (by decide) (by decide) (by decide)
  have hpre : parseSpan "2".toList = (2, 2) := by decide
  have hmain := h.2.1 rfl rfl
  rw [hpre] at hmain
  exact hmain

/-- The replay never reports a write error: reformat discards the result of
every data write. -/
theorem logWriteErr_not_mem_hunkEvents {new : L} {af : Addr → Bool} {wf : Addr → L → Bool}
    {op : Char} {os oe ns ne : Int} :
    Ev.logWriteErr ∉ hunkEvents new af wf op os oe ns ne := by
  simp only [hunkEvents]
  split_ifs <;> simp

theorem logWriteErr_not_mem (new : L) (af : Addr → Bool) (wf : Addr → L → Bool)
    (l : List L) : Ev.logWriteErr ∉ replay new af wf l := by
  induction l with
  | nil => simp [replay]
  | cons x rest ih =>
    cases x with
    | nil => rw [replay_cons_empty]; exact ih
    | cons c cs =>
      by_cases hd : c = '<' ∨ c = '-' ∨ c = '>'
      · rw [replay_cons_detail hd]; exact ih
      · rcases hfo : findOp (c :: cs) with _ | ⟨pre, op, post⟩
        · rw [replay_cons_break hd hfo]; simp
        · by_cases hz : (parseSpan pre).1 = 0 ∨ (parseSpan post).1 = 0
          · rw [replay_cons_zero hd hfo hz]; exact ih
          · rw [replay_cons_hunk hd hfo hz]
            intro hmem
            rcases List.mem_append.mp hmem with h | h
            · exact logWriteErr_not_mem_hunkEvents h
            · exact ih h

/-- C7 counterexample: with a write oracle under which every data write
fails, the hunk of the script 2c2 is still written and no write-error report
appears in the trace: an error writing the buffer is not reported, contrary
to the claim that any error addressing or writing the buffer is logged. -/
theorem c7_failure_isolation_counterexample :
    Ev.writeData (findLines "x\ny\n".toList 2 2) ∈
      reformat "a\nb\n".toList "x\ny\n".toList "2c2".toList
        (fun _ => false) (fun _ _ => true) ∧
    Ev.logWriteErr ∉
      reformat "a\nb\n".toList "x\ny\n".toList "2c2".toList
        (fun _ => false) (fun _ _ => true) := by
  constructor
  · decide
  · decide

/-- C7 (amended): an error addressing the buffer for a hunk is reported (the
address error is logged), that hunk's write is abandoned, and the replay
proceeds with the next line; but an error in the data write itself is
discarded without any report, the replay likewise proceeding. -/
theorem c7_failure_isolation_amended :
    (∀ (new : L) (af : Addr → Bool) (wf : Addr → L → Bool) (rest : List L)
       (c : Char) (cs pre post : L) (op : Char),
      ¬(c = '<' ∨ c = '-' ∨ c = '>') → findOp (c :: cs) = some (pre, op, post) →
      (parseSpan pre).1 ≠ 0 → (parseSpan post).1 ≠ 0 →
      ((op = 'a' → af (Addr.insertAfter (parseSpan pre).1) = true →
        replay new af wf ((c :: cs) :: rest) =
          [Ev.addrReq (Addr.insertAfter (parseSpan pre).1),
           Ev.logAddrErr (Addr.insertAfter (parseSpan pre).1)] ++
          replay new af wf rest) ∧
       ((op = 'c' ∨ op = 'd') →
        af (Addr.lineRange (parseSpan pre).1 (parseSpan pre).2) = true →
        replay new af wf ((c :: cs) :: rest) =
          [Ev.addrReq (Addr.lineRange (parseSpan pre).1 (parseSpan pre).2),
           Ev.logAddrErr (Addr.lineRange (parseSpan pre).1 (parseSpan pre).2)] ++
          replay new af wf rest))) ∧
    (∀ (new : L) (af : Addr → Bool) (wf : Addr → L → Bool) (l : List L),
      Ev.logWriteErr ∉ replay new af wf l) := by
  constructor
  · intro new af wf rest c cs pre post op hd hop hos hns
    have hz : ¬((parseSpan pre).1 = 0 ∨ (parseSpan post).1 = 0) := by tauto
    rw [replay_cons_hunk hd hop hz]
    constructor
    · intro ha haf
      subst ha
      simp [hunkEvents, haf]
    · intro hcd haf
      rcases hcd with hc | hdl
      · subst hc
        simp [hunkEvents, haf]
      · subst hdl
        simp [hunkEvents, haf]
  · exact logWriteErr_not_mem

/-- Witness for C7's amended theorem: a failing address on the header 2c2 is
logged and the remaining line is still replayed; and no trace ever contains a
write-error report. -/
theorem c7_failure_isolation_amended_witness :
    replay "x\ny\n".toList (fun _ => true) (fun _ _ => false)
        ("2c2".toList :: ["1c1".toList]) =
      [Ev.addrReq (Addr.lineRange 2 2), Ev.logAddrErr (Addr.lineRange 2 2)] ++
      replay "x\ny\n".toList (fun _ => true) (fun _ _ => false) ["1c1".toList] ∧
    Ev.logWriteErr ∉ replay "x\ny\n".toList (fun _ => true) (fun _ _ => false)
      ("2c2".toList :: ["1c1".toList]) := by
  constructor
  · have h := (c7_failure_isolation_amended.1 "x\ny\n".toList (fun _ => true)
      (fun _ _ => false) ["1c1".toList] '2' "c2".toList "2".toList "2".toList 'c'
      (by decide) (by decide) (by decide) (by decide)).2 (Or.inl rfl) rfl
    have hpre : parseSpan "2".toList = (2, 2) := by decide
    rw [hpre] at h
    exact h
  · exact c7_failure_isolation_amended.2 "x\ny\n".toList (fun _ => true)
      (fun _ _ => false) ("2c2".toList :: ["1c1".toList])

/-! ## From the textual script to its structured commands -/

theorem parseScript_break_free {lines : List L} {hs : List Hunk}
    (h : parseScript lines = some hs) : ∀ ℓ ∈ lines, BreakFree ℓ := by
  induction lines generalizing hs with
  | nil => simp
  | cons x rest ih =>
    intro ℓ hl
    cases x with
    | nil =>
      have hps' : parseScript rest = some hs := h
      rcases List.mem_cons.mp hl with rfl | hl'
      · trivial
      · exact ih hps' ℓ hl'
    | cons c cs =>
      by_cases hd : c = '<' ∨ c = '-' ∨ c = '>'
      · have hps' : parseScript rest = some hs := by
          simpa only [parseScript, if_pos hd] using h
        rcases List.mem_cons.mp hl with rfl | hl'
        · exact Or.inl hd
        · exact ih hps' ℓ hl'
      · rcases hfo : findOp (c :: cs) with _ | ⟨pre, op, post⟩
        · exfalso
          simp only [parseScript, if_neg hd, hfo] at h
          exact Option.noConfusion h
        · rcases hps2 : parseScript rest with _ | hs'
          · exfalso
            simp only [parseScript, if_neg hd, hfo, hps2] at h
            exact Option.noConfusion h
          · rcases List.mem_cons.mp hl with rfl | hl'
            · exact Or.inr (by simp [hfo])
            · exact ih hps2 ℓ hl'

theorem hunkEvents_noFail (new : L) (wf : Addr → L → Bool) (op : Char) (os oe ns ne : Int)
    (hop : op = 'a' ∨ op = 'c' ∨ op = 'd') :
    hunkEvents new (fun _ => false) wf op os oe ns ne =
      [Ev.addrReq (cmdOfHunk new ⟨op, os, oe, ns, ne⟩).1,
       Ev.writeData (cmdOfHunk new ⟨op, os, oe, ns, ne⟩).2] := by
  rcases hop with h | h | h <;> subst h <;> simp [hunkEvents, cmdOfHunk]

theorem replay_parseScript (new : L) (wf : Addr → L → Bool) :
    ∀ (lines : List L) (hs : List Hunk),
      parseScript lines = some hs →
      (∀ h ∈ hs, h.os ≠ 0 ∧ h.ns ≠ 0) →
      replay new (fun _ => false) wf lines.reverse =
        ((hs.map (fun h => [Ev.addrReq (cmdOfHunk new h).1,
            Ev.writeData (cmdOfHunk new h).2])).reverse).flatten := by
  intro lines
  induction lines with
  | nil =>
    intro hs hps hnz
    simp only [parseScript, Option.some.injEq] at hps
    subst hps
    rfl
  | cons x rest ih =>
    intro hs hps hnz
    cases x with
    | nil =>
      have hps' : parseScript rest = some hs := hps
      rw [List.reverse_cons, replay_append new _ wf _ _
        (fun ℓ hl => parseScript_break_free hps' ℓ (List.mem_reverse.mp hl)),
        ih hs hps' hnz]
      have hone : replay new (fun _ => false) wf [([] : L)] = [] := rfl
      rw [hone, List.append_nil]
    | cons c cs =>
      by_cases hd : c = '<' ∨ c = '-' ∨ c = '>'
      · have hps' : parseScript rest = some hs := by
          simpa only [parseScript, if_pos hd] using hps
        rw [List.reverse_cons, replay_append new _ wf _ _
          (fun ℓ hl => parseScript_break_free hps' ℓ (List.mem_reverse.mp hl)),
          ih hs hps' hnz]
        have hone : replay new (fun _ => false) wf [c :: cs] = [] := by
          rw [replay_cons_detail hd]
          rfl
        rw [hone, List.append_nil]
      · rcases hfo : findOp (c :: cs) with _ | ⟨pre, op, post⟩
        · exfalso
          simp only [parseScript, if_neg hd, hfo] at hps
          exact Option.noConfusion hps
        · rcases hps2 : parseScript rest with _ | hs'
          · exfalso
            simp only [parseScript, if_neg hd, hfo, hps2] at hps
            exact Option.noConfusion hps
          · have hhs : hs = ⟨op, (parseSpan pre).1, (parseSpan pre).2,
                (parseSpan post).1, (parseSpan post).2⟩ :: hs' := by
              simp only [parseScript, if_neg hd, hfo, hps2, Option.some.injEq] at hps
              exact hps.symm
            subst hhs
            have hnz' : ∀ h ∈ hs', h.os ≠ 0 ∧ h.ns ≠ 0 :=
              fun h hm => hnz h (List.mem_cons_of_mem _ hm)
            have hz : ¬((parseSpan pre).1 = 0 ∨ (parseSpan post).1 = 0) := by
              intro hcon
              rcases hcon with h | h
              · exact (hnz _ (List.mem_cons_self _ _)).1 h
              · exact (hnz _ (List.mem_cons_self _ _)).2 h
            rw [List.reverse_cons, replay_append new _ wf _ _
              (fun ℓ hl => parseScript_break_free hps2 ℓ (List.mem_reverse.mp hl)),
              ih hs' hps2 hnz']
            have hsingle : replay new (fun _ => false) wf [c :: cs] =
                [Ev.addrReq (cmdOfHunk new ⟨op, (parseSpan pre).1, (parseSpan pre).2,
                    (parseSpan post).1, (parseSpan post).2⟩).1,
                 Ev.writeData (cmdOfHunk new ⟨op, (parseSpan pre).1, (parseSpan pre).2,
                    (parseSpan post).1, (parseSpan post).2⟩).2] := by
              rw [replay_cons_hunk hd hfo hz,
                hunkEvents_noFail new wf _ _ _ _ _ (findOp_mem hfo)]
              rfl
            rw [hsingle]
            simp [List.flatten_append]

theorem cmdsOf_pairs (ps : List (Addr × L)) :
    cmdsOf ((ps.map (fun p => [Ev.addrReq p.1, Ev.writeData p.2])).flatten) = ps := by
  induction ps with
  | nil => rfl
  | cons p ps ih =>
    simp only [List.map_cons, List.flatten_cons, List.cons_append, List.nil_append]
    show (p.1, p.2) :: cmdsOf ((ps.map (fun p => [Ev.addrReq p.1, Ev.writeData p.2])).flatten)
      = p :: ps
    rw [ih]

theorem cmdsOf_replay_parseScript (new : L) (wf : Addr → L → Bool)
    (lines : List L) (hs : List Hunk)
    (hps : parseScript lines = some hs)
    (hnz : ∀ h ∈ hs, h.os ≠ 0 ∧ h.ns ≠ 0) :
    cmdsOf (replay new (fun _ => false) wf lines.reverse) =
      (hs.map (cmdOfHunk new)).reverse := by
  rw [replay_parseScript new wf lines hs hps hnz]
  have h1 : hs.map (fun h => [Ev.addrReq (cmdOfHunk new h).1,
        Ev.writeData (cmdOfHunk new h).2])
      = (hs.map (cmdOfHunk new)).map (fun p => [Ev.addrReq p.1, Ev.writeData p.2]) := by
    simp [List.map_map, Function.comp]
  rw [h1, ← List.map_reverse, cmdsOf_pairs]

/-! ## Reference splice lemmas -/

theorem lineOffset_nonpos (buf : L) (k : Int) (h : k ≤ 0) : lineOffset buf k = 0 := by
  cases buf with
  | nil => rfl
  | cons c rest => simp [lineOffset, h]

theorem lineOffset_line (p rest : L) (k : Int) (hp : '\n' ∉ p) (hk : 0 < k) :
    lineOffset (p ++ '\n' :: rest) k = p.length + 1 + lineOffset rest (k - 1) := by
  induction p with
  | nil =>
    simp [lineOffset, not_le.mpr hk]
    omega
  | cons c p ih =>
    have hc : ¬(c = '\n') := by
      intro h
      exact hp (by simp [h])
    have hp' : '\n' ∉ p := fun h => hp (List.mem_cons_of_mem _ h)
    simp only [List.cons_append, List.append_eq, lineOffset, if_neg (not_le.mpr hk),
      if_neg hc, ih hp', List.length_cons]
    omega

theorem lineOffset_join (P : List L) (rest : L) (hP : NLFree P) :
    lineOffset (joinLines P ++ rest) (P.length : Int) = (joinLines P).length := by
  induction P with
  | nil => simp [joinLines, lineOffset_nonpos]
  | cons p P ih =>
    have hp : '\n' ∉ p := hP p (List.mem_cons_self _ _)
    have hP' : NLFree P := fun l hl => hP l (List.mem_cons_of_mem _ hl)
    rw [joinLines_cons]
    have hassoc : (p ++ '\n' :: joinLines P) ++ rest = p ++ '\n' :: (joinLines P ++ rest) := by
      simp
    rw [hassoc, lineOffset_line p _ _ hp
      (by simp only [List.length_cons]; push_cast; omega)]
    have hk : ((p :: P).length : Int) - 1 = (P.length : Int) := by
      simp
    rw [hk, ih hP']
    simp
    omega

theorem drop_eq_append_bound {N ins n : List L} {b : Nat}
    (h : N.drop b = ins ++ n) (hne : ins ≠ []) : b + ins.length ≤ N.length := by
  have h1 := congrArg List.length h
  rw [List.length_drop, List.length_append] at h1
  have h2 : ins.length ≠ 0 := fun hh => hne (List.length_eq_zero.mp hh)
  omega

theorem splice_correct {a b : Nat} {o n : List L} {hs : List Hunk}
    (hd : NormalDiff a b o n hs) :
    ∀ (pre N : List L), pre.length = a → N.drop b = n →
      NLFree pre → NLFree o → NLFree N →
      hs.foldr (fun h buf => applyCmd buf (cmdOfHunk (joinLines N) h))
        (joinLines pre ++ joinLines o) = joinLines pre ++ joinLines n := by
  induction hd with
  | nil a b c =>
    intro pre N hpre hNd hpreF hoF hNF
    rfl
  | keep a b x o n hs hder ih =>
    intro pre N hpre hNd hpreF hoF hNF
    subst hpre
    obtain ⟨hx, hoF'⟩ := (NLFree_cons x o).mp hoF
    have hxF : NLFree [x] := by
      intro l hl
      rcases List.mem_singleton.mp hl with rfl
      exact hx
    have hN2 : N.drop (b + 1) = n := by
      have hdd : (N.drop b).drop 1 = N.drop (b + 1) := List.drop_drop 1 b N
      rw [← hdd, hNd, List.drop_one, List.tail_cons]
    have e1 : joinLines pre ++ joinLines (x :: o) = joinLines (pre ++ [x]) ++ joinLines o := by
      simp [joinLines_append, joinLines_cons, joinLines]
    have e2 : joinLines pre ++ joinLines (x :: n) = joinLines (pre ++ [x]) ++ joinLines n := by
      simp [joinLines_append, joinLines_cons, joinLines]
    rw [e1, e2]
    exact ih (pre ++ [x]) N (by simp) hN2
      ((NLFree_append pre [x]).mpr ⟨hpreF, hxF⟩) hoF' hNF
  | add a b o n ins hs hne hder ih =>
    intro pre N hpre hNd hpreF hoF hNF
    subst hpre
    have hN2 : N.drop (b + ins.length) = n := by
      rw [← List.drop_drop, hNd, List.drop_left]
    rw [List.foldr_cons, ih pre N rfl hN2 hpreF hoF hNF]
    have hb : b + ins.length ≤ N.length := drop_eq_append_bound hNd hne
    have hdata : findLines (joinLines N) ((b : Int) + 1) ((b : Int) + (ins.length : Int)) =
        joinLines ins := by
      rw [findLines_join b ins.length N hNF hb, hNd, List.take_left]
    have hcmd : cmdOfHunk (joinLines N)
        ⟨'a', (pre.length : Int), (pre.length : Int), (b : Int) + 1,
          (b : Int) + (ins.length : Int)⟩ =
        (Addr.insertAfter (pre.length : Int), joinLines ins) := by
      simp [cmdOfHunk, hdata]
    rw [hcmd]
    show (joinLines pre ++ joinLines n).take
          (lineOffset (joinLines pre ++ joinLines n) (pre.length : Int)) ++
        joinLines ins ++
        (joinLines pre ++ joinLines n).drop
          (lineOffset (joinLines pre ++ joinLines n) (pre.length : Int)) =
      joinLines pre ++ joinLines (ins ++ n)
    rw [lineOffset_join pre _ hpreF, List.take_left, List.drop_left, joinLines_append]
    simp
  | change a b o n delOld ins hs hdne hine hder ih =>
    intro pre N hpre hNd hpreF hoF hNF
    subst hpre
    obtain ⟨hdelF, hoF'⟩ := (NLFree_append delOld o).mp hoF
    have hN2 : N.drop (b + ins.length) = n := by
      rw [← List.drop_drop, hNd, List.drop_left]
    have e1 : joinLines pre ++ joinLines (delOld ++ o) =
        joinLines (pre ++ delOld) ++ joinLines o := by
      simp [joinLines_append]
    rw [List.foldr_cons, e1, ih (pre ++ delOld) N (by simp) hN2
      ((NLFree_append pre delOld).mpr ⟨hpreF, hdelF⟩) hoF' hNF]
    have hb : b + ins.length ≤ N.length := drop_eq_append_bound hNd hine
    have hdata : findLines (joinLines N) ((b : Int) + 1) ((b : Int) + (ins.length : Int)) =
        joinLines ins := by
      rw [findLines_join b ins.length N hNF hb, hNd, List.take_left]
    have hcmd : cmdOfHunk (joinLines N)
        ⟨'c', (pre.length : Int) + 1, (pre.length : Int) + (delOld.length : Int),
          (b : Int) + 1, (b : Int) + (ins.length : Int)⟩ =
        (Addr.lineRange ((pre.length : Int) + 1)
          ((pre.length : Int) + (delOld.length : Int)), joinLines ins) := by
      simp [cmdOfHunk, hdata]
    rw [hcmd]
    show (joinLines (pre ++ delOld) ++ joinLines n).take
          (lineOffset (joinLines (pre ++ delOld) ++ joinLines n)
            ((pre.length : Int) + 1 - 1)) ++
        joinLines ins ++
        (joinLines (pre ++ delOld) ++ joinLines n).drop
          (lineOffset (joinLines (pre ++ delOld) ++ joinLines n)
            ((pre.length : Int) + (delOld.length : Int))) =
      joinLines pre ++ joinLines (ins ++ n)
    have hk1 : ((pre.length : Int) + 1 - 1) = (pre.length : Int) := by ring
    have hk2 : ((pre.length : Int) + (delOld.length : Int)) =
        ((pre ++ delOld).length : Int) := by
      simp
    have hview : joinLines (pre ++ delOld) ++ joinLines n =
        joinLines pre ++ (joinLines delOld ++ joinLines n) := by
      simp [joinLines_append]
    have hoff1 : lineOffset (joinLines (pre ++ delOld) ++ joinLines n)
        ((pre.length : Int)) = (joinLines pre).length := by
      rw [hview]
      exact lineOffset_join pre _ hpreF
    have hoff2 : lineOffset (joinLines (pre ++ delOld) ++ joinLines n)
        (((pre ++ delOld).length : Int)) = (joinLines (pre ++ delOld)).length :=
      lineOffset_join (pre ++ delOld) _ ((NLFree_append pre delOld).mpr ⟨hpreF, hdelF⟩)
    rw [hk1, hk2, hoff1, hoff2, List.drop_left]
    conv_lhs => rw [hview, List.take_left]
    rw [joinLines_append]
    simp
  | delete a b o n delOld hs hne hder ih =>
    intro pre N hpre hNd hpreF hoF hNF
    subst hpre
    obtain ⟨hdelF, hoF'⟩ := (NLFree_append delOld o).mp hoF
    have e1 : joinLines pre ++ joinLines (delOld ++ o) =
        joinLines (pre ++ delOld) ++ joinLines o := by
      simp [joinLines_append]
    rw [List.foldr_cons, e1, ih (pre ++ delOld) N (by simp) hNd
      ((NLFree_append pre delOld).mpr ⟨hpreF, hdelF⟩) hoF' hNF]
    have hcmd : cmdOfHunk (joinLines N)
        ⟨'d', (pre.length : Int) + 1, (pre.length : Int) + (delOld.length : Int),
          (b : Int), (b : Int)⟩ =
        (Addr.lineRange ((pre.length : Int) + 1)
          ((pre.length : Int) + (delOld.length : Int)), []) := by
      simp [cmdOfHunk]
    rw [hcmd]
    show (joinLines (pre ++ delOld) ++ joinLines n).take
          (lineOffset (joinLines (pre ++ delOld) ++ joinLines n)
            ((pre.length : Int) + 1 - 1)) ++
        [] ++
        (joinLines (pre ++ delOld) ++ joinLines n).drop
          (lineOffset (joinLines (pre ++ delOld) ++ joinLines n)
            ((pre.length : Int) + (delOld.length : Int))) =
      joinLines pre ++ joinLines n
    have hk1 : ((pre.length : Int) + 1 - 1) = (pre.length : Int) := by ring
    have hk2 : ((pre.length : Int) + (delOld.length : Int)) =
        ((pre ++ delOld).length : Int) := by
      simp
    have hview : joinLines (pre ++ delOld) ++ joinLines n =
        joinLines pre ++ (joinLines delOld ++ joinLines n) := by
      simp [joinLines_append]
    have hoff1 : lineOffset (joinLines (pre ++ delOld) ++ joinLines n)
        ((pre.length : Int)) = (joinLines pre).length := by
      rw [hview]
      exact lineOffset_join pre _ hpreF
    have hoff2 : lineOffset (joinLines (pre ++ delOld) ++ joinLines n)
        (((pre ++ delOld).length : Int)) = (joinLines (pre ++ delOld)).length :=
      lineOffset_join (pre ++ delOld) _ ((NLFree_append pre delOld).mpr ⟨hpreF, hdelF⟩)
    rw [hk1, hk2, hoff1, hoff2, List.drop_left]
    conv_lhs => rw [hview, List.take_left]
    simp

theorem NormalDiff_nil_inv {a b : Nat} {o n : List L} {hs : List Hunk}
    (hd : NormalDiff a b o n hs) :
    n = [] → b = 0 → (∀ h ∈ hs, 1 ≤ h.ns) → o = [] := by
  induction hd with
  | nil a b c =>
    intro hn _ _
    exact hn
  | keep a b x o n hs hder ih =>
    intro hn _ _
    simp at hn
  | add a b o n ins hs hne hder ih =>
    intro hn _ _
    obtain ⟨h1, -⟩ := List.append_eq_nil.mp hn
    exact absurd h1 hne
  | change a b o n delOld ins hs hdne hine hder ih =>
    intro hn _ _
    obtain ⟨h1, -⟩ := List.append_eq_nil.mp hn
    exact absurd h1 hine
  | delete a b o n delOld hs hne hder ih =>
    intro hn hb hnz
    have h1 := hnz _ (List.mem_cons_self _ _)
    rw [hb] at h1
    norm_num at h1

/-- C1 counterexample: old content "b", new content "a", "b"; their normal
diff is the single hunk 0a1 (insert before the first line, a valid normal
diff of the pair).  reformat skips the zero old-start hunk, so the produced
command list leaves the old content unchanged and the round trip fails. -/
theorem c1_roundtrip_counterexample :
    NormalDiff 0 0 [['b']] [['a'], ['b']] [⟨'a', 0, 0, 1, 1⟩] ∧
    parseScript (splitOnNl "0a1\n> a".toList) = some [⟨'a', 0, 0, 1, 1⟩] ∧
    applyCmds (joinLines [['b']])
      (cmdsOf (reformat (joinLines [['b']]) (joinLines [['a'], ['b']]) "0a1\n> a".toList
        (fun _ => false) (fun _ _ => false))) ≠ joinLines [['a'], ['b']] := by
  refine ⟨?_, by decide, by decide⟩
  have h := NormalDiff.add 0 0 [['b']] [['b']] [['a']] []
    (by simp) (NormalDiff.nil 0 1 [['b']])
  simpa using h

/-- C1 (amended): the round trip holds whenever the diff script's hunks all
have positive old-span and new-span start values; a hunk with a zero start
(an insertion before the first line, or a deletion of leading lines whose new
position is 0) is skipped by reformat and breaks the round trip, as the
counterexample shows.  For newline-free old and new line contents o and n,
any normal diff hs of o into n whose starts are all at least 1, and any diff
text whose parsed form is hs, applying the command list produced by reformat
to the old content via the reference splice yields exactly the new
content. -/
theorem c1_roundtrip_amended (o n : List L) (hs : List Hunk) (diffText : L)
    (wf : Addr → L → Bool)
    (hoF : NLFree o) (hnF : NLFree n)
    (hnd : NormalDiff 0 0 o n hs)
    (hnz : ∀ h ∈ hs, 1 ≤ h.os ∧ 1 ≤ h.ns)
    (hps : parseScript (splitOnNl diffText) = some hs) :
    applyCmds (joinLines o)
      (cmdsOf (reformat (joinLines o) (joinLines n) diffText (fun _ => false) wf)) =
      joinLines n := by
  unfold reformat
  split_ifs with hgate
  · rcases hgate with hge | hge
    · have hn : n = [] := (joinLines_eq_nil n).mp hge
      subst hn
      have ho : o = [] := NormalDiff_nil_inv hnd rfl rfl (fun h hm => (hnz h hm).2)
      subst ho
      rfl
    · show applyCmds (joinLines o) (cmdsOf []) = joinLines n
      simpa [applyCmds, cmdsOf] using hge
  · have hnz' : ∀ h ∈ hs, h.os ≠ 0 ∧ h.ns ≠ 0 := by
      intro h hm
      obtain ⟨h1, h2⟩ := hnz h hm
      exact ⟨by omega, by omega⟩
    rw [cmdsOf_replay_parseScript (joinLines n) wf _ hs hps hnz']
    show ((hs.map (cmdOfHunk (joinLines n))).reverse).foldl applyCmd (joinLines o) =
      joinLines n
    rw [List.foldl_reverse, List.foldr_map]
    have hsp := splice_correct hnd ([] : List L) n rfl rfl
      (by intro l hl; simp at hl) hoF hnF
    simpa [joinLines_nil] using hsp

/-- Witness for C1's amended theorem on the change 2c2 between the contents
a, b, c and a, x, c. -/
theorem c1_roundtrip_amended_witness :
    NormalDiff 0 0 [['a'], ['b'], ['c']] [['a'], ['x'], ['c']] [⟨'c', 2, 2, 2, 2⟩] ∧
    parseScript (splitOnNl "2c2\n< b\n---\n> x".toList) = some [⟨'c', 2, 2, 2, 2⟩] ∧
    applyCmds (joinLines [['a'], ['b'], ['c']])
      (cmdsOf (reformat (joinLines [['a'], ['b'], ['c']]) (joinLines [['a'], ['x'], ['c']])
        "2c2\n< b\n---\n> x".toList (fun _ => false) (fun _ _ => false))) =
      joinLines [['a'], ['x'], ['c']] := by
  have hnd : NormalDiff 0 0 [['a'], ['b'], ['c']] [['a'], ['x'], ['c']]
      [⟨'c', 2, 2, 2, 2⟩] := by
    have h := NormalDiff.keep 0 0 ['a'] ([['b']] ++ [['c']]) ([['x']] ++ [['c']]) _
      (NormalDiff.change 1 1 [['c']] [['c']] [['b']] [['x']] []
        (by simp) (by simp) (NormalDiff.nil 2 2 [['c']]))
    simpa using h
  refine ⟨hnd, by decide, ?_⟩
  exact c1_roundtrip_amended [['a'], ['b'], ['c']] [['a'], ['x'], ['c']]
    [⟨'c', 2, 2, 2, 2⟩] "2c2\n< b\n---\n> x".toList (fun _ _ => false)
    (by decide) (by decide) hnd (by decide) (by decide)

end Acmewatch
